import Mathlib

/-
Verification of the graph-traversal core of the `social-extract` repository.

The embedding models `src/social_extract/util.py` (`get_graph`, `merge_graphs`)
and the generative test fetcher `_generate_node` from `src/social_extract/test.py`.

Python data is modelled as follows:
* a `dict` is an association list without duplicate keys, in insertion order
  (`Dict`); `dict.update` is `dictUpdate` (later entries overwrite, new keys
  are appended), lookup is `dictGet` (first match);
* a `set` is a list without duplicates in insertion order (`NSet`) with
  `setInsert`, `setUnion` (in-place `|=`) and `setInter` (`&`);
* a `defaultdict(set)` mapping ids to sets of ids is `Graph`; the statement
  `g[k] |= s` is `graphUnionAt g k s` (it creates the key `k` when absent,
  exactly like `defaultdict`);
* the fetch function `node_fn` returns `Option`: `none` models a raised
  exception, which the `except: continue` of `get_graph` turns into skipping
  the node;
* a Python float depth is a rational number (`max_depth` is only ever
  compared with its ceiling, so this is exact for every depth the claims
  mention);
* `KeyboardInterrupt` delivery is modelled by fuel-counting instrumentations
  of the same loop (`get_graph_loopF`, `get_graph_loopD`): the fuel says how
  many interrupt check points run before the signal arrives, and the
  `try`/`except` of lines 32/79 of util.py turns the signal into returning
  the users/graph accumulated so far.
-/

namespace SocialExtract

variable {α β : Type} [DecidableEq α]

/-- The model of a Python `dict`: an association list in insertion order. -/
abbrev Dict (α β : Type) : Type := List (α × β)

/-- The model of a Python `set`: a duplicate-free list in insertion order. -/
abbrev NSet (α : Type) : Type := List α

/-- The model of a `defaultdict(set)` used as an edge map in util.py. -/
abbrev Graph (α : Type) : Type := List (α × NSet α)

/-- Python `s.add x` for a set. -/
def setInsert (s : NSet α) (x : α) : NSet α :=
  if x ∈ s then s else s ++ [x]

/-- Python `s | t` / `s |= t` for sets. -/
def setUnion (s t : NSet α) : NSet α :=
  t.foldl setInsert s

/-- Python `s & t` for sets. -/
def setInter (s t : NSet α) : NSet α :=
  s.filter (fun x => decide (x ∈ t))

/-- The keys of a dict, in order. -/
def dictKeys (d : Dict α β) : List α :=
  d.map Prod.fst

/-- Python `d[k]` lookup (first matching entry; dicts have unique keys). -/
def dictGet : Dict α β → α → Option β
  | [], _ => none
  | p :: d, k => if p.1 = k then some p.2 else dictGet d k

/-- Python `d[k] = v`: overwrite the entry in place, or append a new one. -/
def dictInsert (d : Dict α β) (k : α) (v : β) : Dict α β :=
  if k ∈ dictKeys d then d.map (fun p => if p.1 = k then (p.1, v) else p)
  else d ++ [(k, v)]

/-- Python `d.update e`: apply `d[k] = v` for every entry of `e` in order. -/
def dictUpdate (d e : Dict α β) : Dict α β :=
  e.foldl (fun d p => dictInsert d p.1 p.2) d

/-- The keys of a graph, in order. -/
def graphKeys (g : Graph α) : List α :=
  g.map Prod.fst

/-- Python `g[k]` on a `defaultdict(set)`, read-only view: the stored set,
or the empty set when the key is absent. -/
def graphGetD : Graph α → α → NSet α
  | [], _ => []
  | p :: g, k => if p.1 = k then p.2 else graphGetD g k

/-- Python `g[k] |= s` on a `defaultdict(set)`: union into the stored set,
creating the key (with the elements of `s`) when it is absent. -/
def graphUnionAt (g : Graph α) (k : α) (s : NSet α) : Graph α :=
  if k ∈ graphKeys g then g.map (fun p => if p.1 = k then (p.1, setUnion p.2 s) else p)
  else g ++ [(k, s)]

/-- util.py lines 85-89: `merge_graphs(source, dest)` performs
`dest[follower] |= follows` for every entry of `source`. -/
def merge_graphs (source dest : Graph α) : Graph α :=
  source.foldl (fun d p => graphUnionAt d p.1 p.2) dest

/-- The edge relation of a graph value: `a` follows `b`. -/
def edgeMem (g : Graph α) (a b : α) : Prop :=
  ∃ p ∈ g, p.1 = a ∧ b ∈ p.2

instance (g : Graph α) (a b : α) : Decidable (edgeMem g a b) := by
  unfold edgeMem; infer_instance

/-- test.py `_count_edges`: the total number of edges of a graph. -/
def countEdges (g : Graph α) : Nat :=
  (g.map (fun p => p.2.length)).sum

/-- The mutable state of the traversal loop of `get_graph`
(util.py lines 25-27 and 73-77). -/
structure GState (α β : Type) where
  users : Dict α β
  graph : Graph α
  next_hop : Dict α β

/-- util.py lines 39-47: fetch every frontier node in order, skipping nodes
whose fetch raises (`none`), and accumulate into `(hop_users, hop_graph)`
via `hop_users.update(node_users)` and `merge_graphs(node_graph, hop_graph)`. -/
def fetchAcc (nf : α → β → Option (Dict α β × Graph α)) :
    List (α × β) → Dict α β × Graph α → Dict α β × Graph α
  | [], acc => acc
  | p :: rest, acc =>
    match nf p.1 p.2 with
    | none => fetchAcc nf rest acc
    | some (nu, ng) => fetchAcc nf rest (dictUpdate acc.1 nu, merge_graphs ng acc.2)

/-- The whole per-hop fetch loop, starting from empty `hop_users`/`hop_graph`. -/
def fetchHop (nf : α → β → Option (Dict α β × Graph α)) (frontier : Dict α β) :
    Dict α β × Graph α :=
  fetchAcc nf frontier ([], [])

/-- util.py lines 58-60: the last-hop edge filter for a half depth; `known`
is `set(users.keys()) | set(next_hop.keys())`. -/
def halfFold (known : NSet α) : Graph α → Graph α → Graph α
  | [], g => g
  | p :: rest, g =>
    halfFold known rest (if p.1 ∈ known then graphUnionAt g p.1 (setInter p.2 known) else g)

/-- util.py lines 67-71: the last-hop edge filter for a whole depth; `known`
is `set(users.keys())`. -/
def wholeFold (known : NSet α) : Graph α → Graph α → Graph α
  | [], g => g
  | p :: rest, g =>
    wholeFold known rest
      (if p.1 ∈ known then graphUnionAt g p.1 p.2 else graphUnionAt g p.1 (setInter p.2 known))

/-- One non-final hop (util.py lines 49-51 and 73-77) applied to already
fetched `(hop_users, hop_graph)`: merge all edges, compute the next frontier
from the old `users`, then update `users`. -/
def midApply (st : GState α β) (hu : Dict α β) (hg : Graph α) : GState α β :=
  { users := dictUpdate st.users hu
    graph := merge_graphs hg st.graph
    next_hop := hu.filter (fun p => decide (p.1 ∉ dictKeys st.users)) }

/-- The final hop (util.py lines 52-77) applied to already fetched
`(hop_users, hop_graph)`: filter edges by the half/whole-depth policy,
compute the next frontier, and update `users` only when the depth is whole. -/
def lastApply (half : Bool) (st : GState α β) (hu : Dict α β) (hg : Graph α) : GState α β :=
  { users := if half then st.users else dictUpdate st.users hu
    graph :=
      if half then halfFold (setUnion (dictKeys st.users) (dictKeys st.next_hop)) hg st.graph
      else wholeFold (dictKeys st.users) hg st.graph
    next_hop := hu.filter (fun p => decide (p.1 ∉ dictKeys st.users)) }

/-- One full non-final iteration of the hop loop. -/
def midStep (nf : α → β → Option (Dict α β × Graph α)) (st : GState α β) : GState α β :=
  let r := fetchHop nf st.next_hop
  midApply st r.1 r.2

/-- The full final iteration of the hop loop. -/
def lastStep (nf : α → β → Option (Dict α β × Graph α)) (half : Bool) (st : GState α β) :
    GState α β :=
  let r := fetchHop nf st.next_hop
  lastApply half st r.1 r.2

/-- `k` non-final hops in sequence. -/
def midIter (nf : α → β → Option (Dict α β × Graph α)) : Nat → GState α β → GState α β
  | 0, st => st
  | k + 1, st => midIter nf k (midStep nf st)

/-- util.py line 33: `for depth in range(1, max_depth_int + 1)`, measured by
the number of remaining iterations; all but the last are `midStep`. -/
def get_graph_loop (nf : α → β → Option (Dict α β × Graph α)) (half : Bool) :
    Nat → GState α β → GState α β
  | 0, st => st
  | 1, st => lastStep nf half st
  | r + 2, st => get_graph_loop nf half (r + 1) (midStep nf st)

/-- util.py lines 25-27: `users = dict(seeds)`, `graph = defaultdict(set)`,
`next_hop = dict(seeds)`. -/
def initState (seeds : Dict α β) : GState α β :=
  { users := seeds, graph := [], next_hop := seeds }

/-- util.py `get_graph(node_fn, seeds, max_depth)` (lines 7-82), without
interruption. `max_depth_int = math.ceil(max_depth)`; the loop body treats
depth `max_depth_int` as the final hop. -/
def get_graph (nf : α → β → Option (Dict α β × Graph α)) (seeds : Dict α β)
    (max_depth : ℚ) : Dict α β × Graph α :=
  let max_depth_int : ℤ := ⌈max_depth⌉
  let half_depth : Bool := decide (¬ ((max_depth_int : ℚ) = max_depth))
  let st := get_graph_loop nf half_depth max_depth_int.toNat (initState seeds)
  (st.users, st.graph)

/-- The `(users, graph)` accumulated by an uninterrupted run after `k` fully
completed hops: for `k` below the hop count this is the state after `k`
non-final hops, otherwise the full result. -/
def get_graph_after_hops (nf : α → β → Option (Dict α β × Graph α)) (seeds : Dict α β)
    (max_depth : ℚ) (k : Nat) : Dict α β × Graph α :=
  let n := (⌈max_depth⌉ : ℤ).toNat
  if k < n then
    let st := midIter nf k (initState seeds)
    (st.users, st.graph)
  else get_graph nf seeds max_depth

/-- The traversal state just before the final hop (the state after
`max_depth_int - 1` non-final hops). -/
def preFinalState (nf : α → β → Option (Dict α β × Graph α)) (seeds : Dict α β)
    (max_depth : ℚ) : GState α β :=
  midIter nf ((⌈max_depth⌉ : ℤ).toNat - 1) (initState seeds)

/-- The known-node set of the final hop of a half depth:
`set(users.keys()) | set(next_hop.keys())` at util.py line 56. -/
def hopKnownHalf (nf : α → β → Option (Dict α β × Graph α)) (seeds : Dict α β)
    (max_depth : ℚ) : NSet α :=
  setUnion (dictKeys (preFinalState nf seeds max_depth).users)
    (dictKeys (preFinalState nf seeds max_depth).next_hop)

/-- The fetch loop of util.py lines 39-47 instrumented with interrupt check
points: one unit of fuel is consumed before each fetch, and the
`KeyboardInterrupt` (`none`) fires when the fuel is exhausted at such a
point.  On interrupt the local `hop_users`/`hop_graph` are discarded by the
caller, exactly as in the Python `try` of line 32. -/
def fetchAccF (nf : α → β → Option (Dict α β × Graph α)) :
    List (α × β) → Nat → Dict α β × Graph α → Option (Nat × Dict α β × Graph α)
  | [], fuel, acc => some (fuel, acc)
  | _ :: _, 0, _ => none
  | p :: rest, fuel + 1, acc =>
    match nf p.1 p.2 with
    | none => fetchAccF nf rest fuel acc
    | some (nu, ng) => fetchAccF nf rest fuel (dictUpdate acc.1 nu, merge_graphs ng acc.2)

/-- The hop loop with interrupts deliverable only at fetch boundaries
(before a fetch begins).  An interrupt makes the whole loop return the
`(users, graph)` accumulated so far, as the `except KeyboardInterrupt`
of util.py line 79 does. -/
def get_graph_loopF (nf : α → β → Option (Dict α β × Graph α)) (half : Bool) :
    Nat → Nat → GState α β → Dict α β × Graph α
  | _, 0, st => (st.users, st.graph)
  | fuel, 1, st =>
    match fetchAccF nf st.next_hop fuel ([], []) with
    | none => (st.users, st.graph)
    | some (_, hu, hg) =>
      let st' := lastApply half st hu hg
      (st'.users, st'.graph)
  | fuel, r + 2, st =>
    match fetchAccF nf st.next_hop fuel ([], []) with
    | none => (st.users, st.graph)
    | some (fuel', hu, hg) => get_graph_loopF nf half fuel' (r + 1) (midApply st hu hg)

/-- The hop loop with one more interrupt point per hop: after the hop edges
have been merged into `graph` (end of util.py line 51 or 60 or 71) but
before `users.update(hop_users)` runs (line 77).  `KeyboardInterrupt` can
arrive between these two statements, and the `except` of line 79 then
returns the mixed state. -/
def get_graph_loopD (nf : α → β → Option (Dict α β × Graph α)) (half : Bool) :
    Nat → Nat → GState α β → Dict α β × Graph α
  | _, 0, st => (st.users, st.graph)
  | fuel, 1, st =>
    match fetchAccF nf st.next_hop fuel ([], []) with
    | none => (st.users, st.graph)
    | some (fuel', hu, hg) =>
      match fuel' with
      | 0 => (st.users, (lastApply half st hu hg).graph)
      | _ + 1 =>
        let st' := lastApply half st hu hg
        (st'.users, st'.graph)
  | fuel, r + 2, st =>
    match fetchAccF nf st.next_hop fuel ([], []) with
    | none => (st.users, st.graph)
    | some (fuel', hu, hg) =>
      match fuel' with
      | 0 => (st.users, merge_graphs hg st.graph)
      | f + 1 => get_graph_loopD nf half f (r + 1) (midApply st hu hg)

/-- `get_graph` with an interrupt delivered at the fetch boundary selected
by `fuel` (the number of fetches that begin before the signal arrives). -/
def get_graph_intrFetch (nf : α → β → Option (Dict α β × Graph α)) (seeds : Dict α β)
    (max_depth : ℚ) (fuel : Nat) : Dict α β × Graph α :=
  let max_depth_int : ℤ := ⌈max_depth⌉
  let half_depth : Bool := decide (¬ ((max_depth_int : ℚ) = max_depth))
  get_graph_loopF nf half_depth fuel max_depth_int.toNat (initState seeds)

/-- `get_graph` with an interrupt that may also land between a hop's edge
merge and its user update. -/
def get_graph_intr (nf : α → β → Option (Dict α β × Graph α)) (seeds : Dict α β)
    (max_depth : ℚ) (fuel : Nat) : Dict α β × Graph α :=
  let max_depth_int : ℤ := ⌈max_depth⌉
  let half_depth : Bool := decide (¬ ((max_depth_int : ℚ) = max_depth))
  get_graph_loopD nf half_depth fuel max_depth_int.toNat (initState seeds)

/-- test.py `_generate_node` (lines 24-54): the generative Node Fetcher.
Node `X` follows `X0`, `X1`; is followed by `X2`, `X3`; and `X0` follows
`X1`.  Users and graph entries are listed in the insertion order of the
Python code (rule 1, rule 2, rule 3). -/
def _generate_node (user_id : String) (_user_name : String) :
    Option (Dict String String × Graph String) :=
  let f0 := user_id ++ "0"
  let f1 := user_id ++ "1"
  let f2 := user_id ++ "2"
  let f3 := user_id ++ "3"
  some ([(f0, "user" ++ f0), (f1, "user" ++ f1), (f2, "user" ++ f2), (f3, "user" ++ f3)],
    [(user_id, [f0, f1]), (f2, [user_id]), (f3, [user_id]), (f0, [f1])])

/-- The seed dictionary used by the tests: `{'1': 'user1'}`. -/
def seed1 : Dict String String := [("1", "user1")]

/-- A two-seed fetcher used as a concrete input: `A` follows `B`. -/
def nfAB : String → String → Option (Dict String String × Graph String)
  | "A", _ => some ([("B", "b")], [("A", ["B"])])
  | "B", _ => some ([], [])
  | _, _ => none

/-- A fetcher whose two frontier nodes report the same discovered user with
different labels (possible for real adapters: two pages can render the same
account differently). -/
def nfDup : String → String → Option (Dict String String × Graph String)
  | "A", _ => some ([("X", "l1")], [])
  | "B", _ => some ([("X", "l2")], [])
  | _, _ => none

end SocialExtract

namespace SocialExtract

variable {α β : Type} [DecidableEq α]

/-! ### Basic lemmas about the set, dict and graph models -/

theorem mem_setInsert (s : NSet α) (x a : α) : a ∈ setInsert s x ↔ a ∈ s ∨ a = x := by
  by_cases h : x ∈ s
  · simp only [setInsert, if_pos h]
    exact ⟨Or.inl, fun hh => hh.elim id (fun e => e ▸ h)⟩
  · simp [setInsert, if_neg h]

theorem mem_setUnion (s t : NSet α) (a : α) : a ∈ setUnion s t ↔ a ∈ s ∨ a ∈ t := by
  induction t generalizing s with
  | nil => simp [setUnion]
  | cons x t ih =>
    have hstep : setUnion s (x :: t) = setUnion (setInsert s x) t := rfl
    rw [hstep, ih, mem_setInsert, List.mem_cons]
    tauto

theorem mem_setInter (s t : NSet α) (a : α) : a ∈ setInter s t ↔ a ∈ s ∧ a ∈ t := by
  simp [setInter, List.mem_filter]

theorem mem_dictKeys (d : Dict α β) (k : α) : k ∈ dictKeys d ↔ ∃ p ∈ d, p.1 = k := by
  simp [dictKeys, List.mem_map]

end SocialExtract

namespace SocialExtract

variable {α β : Type} [DecidableEq α]

theorem dictKeys_map_replace (d : Dict α β) (k : α) (v : β) :
    dictKeys (d.map (fun p => if p.1 = k then (p.1, v) else p)) = dictKeys d := by
  simp only [dictKeys, List.map_map]
  congr 1
  funext p
  by_cases h : p.1 = k <;> simp [Function.comp, h]

theorem dictGet_map_replace_ne (d : Dict α β) (k : α) (v : β) (k' : α) (h : k' ≠ k) :
    dictGet (d.map (fun p => if p.1 = k then (p.1, v) else p)) k' = dictGet d k' := by
  induction d with
  | nil => rfl
  | cons p d ih =>
    by_cases hp : p.1 = k
    · simp only [List.map_cons, if_pos hp, dictGet, hp]
      rw [if_neg (fun e => h e.symm), if_neg (fun e : k = k' => h e.symm), ih]
    · simp only [List.map_cons, if_neg hp, dictGet, ih]

theorem dictGet_map_replace_mem (d : Dict α β) (k : α) (v : β) (h : k ∈ dictKeys d) :
    dictGet (d.map (fun p => if p.1 = k then (p.1, v) else p)) k = some v := by
  induction d with
  | nil => simp [dictKeys] at h
  | cons p d ih =>
    by_cases hp : p.1 = k
    · simp only [List.map_cons, if_pos hp, dictGet, if_pos hp]
    · simp only [List.map_cons, if_neg hp, dictGet, if_neg hp]
      have : k ∈ dictKeys d := by
        rcases (mem_dictKeys _ _).1 h with ⟨q, hq, hq1⟩
        rcases List.mem_cons.1 hq with hq' | hq'
        · exact absurd (hq' ▸ hq1) hp
        · exact (mem_dictKeys _ _).2 ⟨q, hq', hq1⟩
      exact ih this

theorem dictGet_append_single_self (d : Dict α β) (k : α) (v : β) (h : k ∉ dictKeys d) :
    dictGet (d ++ [(k, v)]) k = some v := by
  induction d with
  | nil => simp [dictGet]
  | cons p d ih =>
    have hp : p.1 ≠ k := fun e => h ((mem_dictKeys _ _).2 ⟨p, List.mem_cons_self p d, e⟩)
    have hd : k ∉ dictKeys d := fun hh => by
      rcases (mem_dictKeys _ _).1 hh with ⟨q, hq, hq1⟩
      exact h ((mem_dictKeys _ _).2 ⟨q, List.mem_cons_of_mem p hq, hq1⟩)
    simp only [List.cons_append, dictGet, if_neg hp]
    exact ih hd

theorem dictGet_append_single_ne (d : Dict α β) (k : α) (v : β) (k' : α) (h : k' ≠ k) :
    dictGet (d ++ [(k, v)]) k' = dictGet d k' := by
  induction d with
  | nil => simp only [List.nil_append, dictGet, if_neg (fun e : k = k' => h e.symm)]
  | cons p d ih =>
    simp only [List.cons_append, dictGet, List.append_eq]
    rw [ih]

theorem dictGet_dictInsert (d : Dict α β) (k : α) (v : β) (k' : α) :
    dictGet (dictInsert d k v) k' = if k' = k then some v else dictGet d k' := by
  by_cases hk : k ∈ dictKeys d
  · rw [dictInsert, if_pos hk]
    by_cases h : k' = k
    · rw [if_pos h, h, dictGet_map_replace_mem d k v hk]
    · rw [if_neg h, dictGet_map_replace_ne d k v k' h]
  · rw [dictInsert, if_neg hk]
    by_cases h : k' = k
    · rw [if_pos h, h, dictGet_append_single_self d k v hk]
    · rw [if_neg h, dictGet_append_single_ne d k v k' h]

theorem mem_dictKeys_dictInsert (d : Dict α β) (k : α) (v : β) (k' : α) :
    k' ∈ dictKeys (dictInsert d k v) ↔ k' ∈ dictKeys d ∨ k' = k := by
  by_cases hk : k ∈ dictKeys d
  · rw [dictInsert, if_pos hk, dictKeys_map_replace]
    exact ⟨Or.inl, fun h => h.elim id (fun e => e ▸ hk)⟩
  · rw [dictInsert, if_neg hk]
    simp [dictKeys]

theorem dictUpdate_cons (d : Dict α β) (p : α × β) (e : Dict α β) :
    dictUpdate d (p :: e) = dictUpdate (dictInsert d p.1 p.2) e := rfl

theorem mem_dictKeys_dictUpdate (d e : Dict α β) (k : α) :
    k ∈ dictKeys (dictUpdate d e) ↔ k ∈ dictKeys d ∨ k ∈ dictKeys e := by
  induction e generalizing d with
  | nil => simp [dictUpdate, dictKeys]
  | cons p e ih =>
    rw [dictUpdate_cons, ih, mem_dictKeys_dictInsert]
    simp only [dictKeys, List.map_cons, List.mem_cons]
    tauto

theorem dictGet_dictUpdate_of_nodup (d e : Dict α β) (k : α) (hnd : (dictKeys e).Nodup) :
    dictGet (dictUpdate d e) k = if k ∈ dictKeys e then dictGet e k else dictGet d k := by
  induction e generalizing d with
  | nil => simp [dictUpdate, dictKeys, dictGet]
  | cons p e ih =>
    have hnodup : (dictKeys e).Nodup := (List.nodup_cons.1 hnd).2
    have hp : p.1 ∉ dictKeys e := (List.nodup_cons.1 hnd).1
    rw [dictUpdate_cons, ih _ hnodup]
    by_cases h : k = p.1
    · have hmem : k ∈ dictKeys (p :: e) := by
        simp [dictKeys, h]
      rw [if_neg (fun hh => hp (h ▸ hh)), dictGet_dictInsert, if_pos h, if_pos hmem]
      show some p.2 = if p.1 = k then some p.2 else dictGet e k
      rw [if_pos h.symm]
    · have hiff : k ∈ dictKeys (p :: e) ↔ k ∈ dictKeys e := by
        simp only [dictKeys, List.map_cons, List.mem_cons]
        exact ⟨fun hh => hh.elim (fun e' => absurd e' h) id, Or.inr⟩
      by_cases hke : k ∈ dictKeys e
      · rw [if_pos hke, if_pos (hiff.2 hke)]
        simp only [dictGet, if_neg (fun e' : p.1 = k => h e'.symm)]
      · rw [if_neg hke, if_neg (fun hh => hke (hiff.1 hh)), dictGet_dictInsert,
          if_neg h]

end SocialExtract

namespace SocialExtract

variable {α β : Type} [DecidableEq α]

theorem edgeMem_nil (a b : α) : ¬ edgeMem ([] : Graph α) a b := by
  simp [edgeMem]

theorem edgeMem_cons (p : α × NSet α) (g : Graph α) (a b : α) :
    edgeMem (p :: g) a b ↔ (p.1 = a ∧ b ∈ p.2) ∨ edgeMem g a b := by
  constructor
  · rintro ⟨q, hq, hq1, hq2⟩
    rcases List.mem_cons.1 hq with h | h
    · exact Or.inl ⟨h ▸ hq1, h ▸ hq2⟩
    · exact Or.inr ⟨q, h, hq1, hq2⟩
  · rintro (⟨h1, h2⟩ | ⟨q, hq, hq1, hq2⟩)
    · exact ⟨p, List.mem_cons_self p g, h1, h2⟩
    · exact ⟨q, List.mem_cons_of_mem p hq, hq1, hq2⟩

theorem mem_graphKeys (g : Graph α) (k : α) : k ∈ graphKeys g ↔ ∃ p ∈ g, p.1 = k := by
  simp [graphKeys, List.mem_map]

theorem graphKeys_map_union (g : Graph α) (k : α) (s : NSet α) :
    graphKeys (g.map (fun p => if p.1 = k then (p.1, setUnion p.2 s) else p)) = graphKeys g := by
  simp only [graphKeys, List.map_map]
  congr 1
  funext p
  by_cases h : p.1 = k <;> simp [Function.comp, h]

theorem mem_graphKeys_graphUnionAt (g : Graph α) (k : α) (s : NSet α) (k' : α) :
    k' ∈ graphKeys (graphUnionAt g k s) ↔ k' ∈ graphKeys g ∨ k' = k := by
  by_cases hk : k ∈ graphKeys g
  · rw [graphUnionAt, if_pos hk, graphKeys_map_union]
    exact ⟨Or.inl, fun h => h.elim id (fun e => e ▸ hk)⟩
  · rw [graphUnionAt, if_neg hk]
    simp [graphKeys]

theorem edgeMem_graphUnionAt (g : Graph α) (k : α) (s : NSet α) (a b : α) :
    edgeMem (graphUnionAt g k s) a b ↔ edgeMem g a b ∨ (a = k ∧ b ∈ s) := by
  by_cases hk : k ∈ graphKeys g
  · rw [graphUnionAt, if_pos hk]
    constructor
    · rintro ⟨q, hq, hq1, hq2⟩
      rcases List.mem_map.1 hq with ⟨p, hp, hpq⟩
      by_cases h : p.1 = k
      · rw [if_pos h] at hpq
        rw [← hpq] at hq1 hq2
        have hq1' : p.1 = a := hq1
        rcases (mem_setUnion _ _ _).1 hq2 with hb | hb
        · exact Or.inl ⟨p, hp, hq1', hb⟩
        · exact Or.inr ⟨hq1'.symm.trans h, hb⟩
      · rw [if_neg h] at hpq
        rw [← hpq] at hq1 hq2
        exact Or.inl ⟨p, hp, hq1, hq2⟩
    · rintro (⟨p, hp, hp1, hp2⟩ | ⟨rfl, hb⟩)
      · refine ⟨(if p.1 = k then (p.1, setUnion p.2 s) else p), List.mem_map_of_mem _ hp, ?_⟩
        by_cases h : p.1 = k
        · rw [if_pos h]
          exact ⟨hp1, (mem_setUnion _ _ _).2 (Or.inl hp2)⟩
        · rw [if_neg h]
          exact ⟨hp1, hp2⟩
      · rcases (mem_graphKeys _ _).1 hk with ⟨q, hq, hq1⟩
        refine ⟨(if q.1 = a then (q.1, setUnion q.2 s) else q), List.mem_map_of_mem _ hq, ?_⟩
        rw [if_pos hq1, hq1]
        exact ⟨rfl, (mem_setUnion _ _ _).2 (Or.inr hb)⟩
  · rw [graphUnionAt, if_neg hk]
    constructor
    · rintro ⟨q, hq, hq1, hq2⟩
      rcases List.mem_append.1 hq with h | h
      · exact Or.inl ⟨q, h, hq1, hq2⟩
      · rcases List.mem_singleton.1 h with rfl
        exact Or.inr ⟨hq1.symm, hq2⟩
    · rintro (⟨q, hq, hq1, hq2⟩ | ⟨rfl, hb⟩)
      · exact ⟨q, List.mem_append.2 (Or.inl hq), hq1, hq2⟩
      · exact ⟨(a, s), List.mem_append.2 (Or.inr (List.mem_singleton.2 rfl)), rfl, hb⟩

theorem merge_graphs_nil (dest : Graph α) : merge_graphs ([] : Graph α) dest = dest := rfl

theorem merge_graphs_cons (p : α × NSet α) (src dest : Graph α) :
    merge_graphs (p :: src) dest = merge_graphs src (graphUnionAt dest p.1 p.2) := rfl

theorem edgeMem_merge_graphs (src dest : Graph α) (a b : α) :
    edgeMem (merge_graphs src dest) a b ↔ edgeMem dest a b ∨ edgeMem src a b := by
  induction src generalizing dest with
  | nil => simp [merge_graphs_nil, edgeMem_nil]
  | cons p src ih =>
    rw [merge_graphs_cons, ih, edgeMem_graphUnionAt, edgeMem_cons]
    constructor
    · rintro ((h | ⟨rfl, hb⟩) | h)
      · exact Or.inl h
      · exact Or.inr (Or.inl ⟨rfl, hb⟩)
      · exact Or.inr (Or.inr h)
    · rintro (h | (⟨h1, hb⟩ | h))
      · exact Or.inl (Or.inl h)
      · exact Or.inl (Or.inr ⟨h1.symm, hb⟩)
      · exact Or.inr h

theorem mem_graphKeys_merge_graphs (src dest : Graph α) (k : α) :
    k ∈ graphKeys (merge_graphs src dest) ↔ k ∈ graphKeys dest ∨ k ∈ graphKeys src := by
  induction src generalizing dest with
  | nil => simp [merge_graphs_nil, graphKeys]
  | cons p src ih =>
    rw [merge_graphs_cons, ih, mem_graphKeys_graphUnionAt]
    simp only [graphKeys, List.map_cons, List.mem_cons]
    tauto

end SocialExtract

namespace SocialExtract

variable {α β : Type} [DecidableEq α]

/-! ### Lemmas about the per-hop fetch loop -/

theorem fetchAcc_filter_isSome (nf : α → β → Option (Dict α β × Graph α))
    (l : List (α × β)) (acc : Dict α β × Graph α) :
    fetchAcc nf l acc = fetchAcc nf (l.filter (fun p => (nf p.1 p.2).isSome)) acc := by
  induction l generalizing acc with
  | nil => rfl
  | cons p l ih =>
    cases h : nf p.1 p.2 with
    | none =>
      rw [List.filter_cons]
      simp only [fetchAcc, h, Option.isSome_none, Bool.false_eq_true, if_false]
      exact ih acc
    | some r =>
      rw [List.filter_cons]
      simp only [fetchAcc, h, Option.isSome_some, if_true]
      cases r with
      | mk nu ng => exact ih _

theorem mem_graphKeys_fetchAcc_of_acc (nf : α → β → Option (Dict α β × Graph α))
    (l : List (α × β)) (acc : Dict α β × Graph α) (k : α)
    (h : k ∈ graphKeys acc.2) : k ∈ graphKeys (fetchAcc nf l acc).2 := by
  induction l generalizing acc with
  | nil => exact h
  | cons p l ih =>
    cases hf : nf p.1 p.2 with
    | none =>
      simp only [fetchAcc, hf]
      exact ih acc h
    | some r =>
      cases r with
      | mk nu ng =>
        simp only [fetchAcc, hf]
        exact ih _ ((mem_graphKeys_merge_graphs _ _ _).2 (Or.inl h))

theorem mem_graphKeys_fetchAcc_of_frag (nf : α → β → Option (Dict α β × Graph α))
    (l : List (α × β)) (acc : Dict α β × Graph α) (p : α × β)
    (hp : p ∈ l) (nu : Dict α β) (ng : Graph α) (hf : nf p.1 p.2 = some (nu, ng))
    (k : α) (hk : k ∈ graphKeys ng) : k ∈ graphKeys (fetchAcc nf l acc).2 := by
  induction l generalizing acc with
  | nil => cases hp
  | cons q l ih =>
    rcases List.mem_cons.1 hp with rfl | hq
    · simp only [fetchAcc, hf]
      exact mem_graphKeys_fetchAcc_of_acc nf l _ k
        ((mem_graphKeys_merge_graphs _ _ _).2 (Or.inr hk))
    · cases hf' : nf q.1 q.2 with
      | none =>
        simp only [fetchAcc, hf']
        exact ih acc hq
      | some r =>
        cases r with
        | mk nu' ng' =>
          simp only [fetchAcc, hf']
          exact ih _ hq

/-! ### Characterizations of the two last-hop edge filters -/

theorem edgeMem_halfFold (known : NSet α) (hg g0 : Graph α) (a b : α) :
    edgeMem (halfFold known hg g0) a b ↔
      edgeMem g0 a b ∨ ∃ p ∈ hg, p.1 = a ∧ b ∈ p.2 ∧ a ∈ known ∧ b ∈ known := by
  induction hg generalizing g0 with
  | nil => simp [halfFold]
  | cons p hg ih =>
    have hstep : halfFold known (p :: hg) g0 =
        halfFold known hg (if p.1 ∈ known then graphUnionAt g0 p.1 (setInter p.2 known) else g0) :=
      rfl
    rw [hstep, ih]
    by_cases hp : p.1 ∈ known
    · rw [if_pos hp]
      rw [edgeMem_graphUnionAt]
      constructor
      · rintro ((h | ⟨rfl, hb⟩) | ⟨q, hq, hq1, hq2, hqa, hqb⟩)
        · exact Or.inl h
        · rcases (mem_setInter _ _ _).1 hb with ⟨hb1, hb2⟩
          exact Or.inr ⟨p, List.mem_cons_self p hg, rfl, hb1, hp, hb2⟩
        · exact Or.inr ⟨q, List.mem_cons_of_mem p hq, hq1, hq2, hqa, hqb⟩
      · rintro (h | ⟨q, hq, hq1, hq2, hqa, hqb⟩)
        · exact Or.inl (Or.inl h)
        · rcases List.mem_cons.1 hq with rfl | hq'
          · exact Or.inl (Or.inr ⟨hq1.symm, (mem_setInter _ _ _).2 ⟨hq2, hqb⟩⟩)
          · exact Or.inr ⟨q, hq', hq1, hq2, hqa, hqb⟩
    · rw [if_neg hp]
      constructor
      · rintro (h | ⟨q, hq, hq1, hq2, hqa, hqb⟩)
        · exact Or.inl h
        · exact Or.inr ⟨q, List.mem_cons_of_mem p hq, hq1, hq2, hqa, hqb⟩
      · rintro (h | ⟨q, hq, hq1, hq2, hqa, hqb⟩)
        · exact Or.inl h
        · rcases List.mem_cons.1 hq with rfl | hq'
          · exact absurd (hq1 ▸ hqa) hp
          · exact Or.inr ⟨q, hq', hq1, hq2, hqa, hqb⟩

theorem edgeMem_wholeFold (known : NSet α) (hg g0 : Graph α) (a b : α) :
    edgeMem (wholeFold known hg g0) a b ↔
      edgeMem g0 a b ∨ ∃ p ∈ hg, p.1 = a ∧ b ∈ p.2 ∧ (a ∈ known ∨ b ∈ known) := by
  induction hg generalizing g0 with
  | nil => simp [wholeFold]
  | cons p hg ih =>
    have hstep : wholeFold known (p :: hg) g0 =
        wholeFold known hg
          (if p.1 ∈ known then graphUnionAt g0 p.1 p.2
           else graphUnionAt g0 p.1 (setInter p.2 known)) := rfl
    rw [hstep, ih]
    by_cases hp : p.1 ∈ known
    · rw [if_pos hp, edgeMem_graphUnionAt]
      constructor
      · rintro ((h | ⟨rfl, hb⟩) | ⟨q, hq, hq1, hq2, hqk⟩)
        · exact Or.inl h
        · exact Or.inr ⟨p, List.mem_cons_self p hg, rfl, hb, Or.inl hp⟩
        · exact Or.inr ⟨q, List.mem_cons_of_mem p hq, hq1, hq2, hqk⟩
      · rintro (h | ⟨q, hq, hq1, hq2, hqk⟩)
        · exact Or.inl (Or.inl h)
        · rcases List.mem_cons.1 hq with rfl | hq'
          · exact Or.inl (Or.inr ⟨hq1.symm, hq2⟩)
          · exact Or.inr ⟨q, hq', hq1, hq2, hqk⟩
    · rw [if_neg hp, edgeMem_graphUnionAt]
      constructor
      · rintro ((h | ⟨rfl, hb⟩) | ⟨q, hq, hq1, hq2, hqk⟩)
        · exact Or.inl h
        · rcases (mem_setInter _ _ _).1 hb with ⟨hb1, hb2⟩
          exact Or.inr ⟨p, List.mem_cons_self p hg, rfl, hb1, Or.inr hb2⟩
        · exact Or.inr ⟨q, List.mem_cons_of_mem p hq, hq1, hq2, hqk⟩
      · rintro (h | ⟨q, hq, hq1, hq2, hqk⟩)
        · exact Or.inl (Or.inl h)
        · rcases List.mem_cons.1 hq with rfl | hq'
          · rcases hqk with hqa | hqb
            · exact absurd (hq1 ▸ hqa) hp
            · exact Or.inl (Or.inr ⟨hq1.symm, (mem_setInter _ _ _).2 ⟨hq2, hqb⟩⟩)
          · exact Or.inr ⟨q, hq', hq1, hq2, hqk⟩

theorem mem_graphKeys_wholeFold (known : NSet α) (hg g0 : Graph α) (k : α)
    (h : k ∈ graphKeys g0 ∨ k ∈ graphKeys hg) : k ∈ graphKeys (wholeFold known hg g0) := by
  induction hg generalizing g0 with
  | nil =>
    rcases h with h | h
    · exact h
    · simp [graphKeys] at h
  | cons p hg ih =>
    have hstep : wholeFold known (p :: hg) g0 =
        wholeFold known hg
          (if p.1 ∈ known then graphUnionAt g0 p.1 p.2
           else graphUnionAt g0 p.1 (setInter p.2 known)) := rfl
    rw [hstep]
    rcases h with h | h
    · refine ih _ (Or.inl ?_)
      by_cases hp : p.1 ∈ known
      · rw [if_pos hp]
        exact (mem_graphKeys_graphUnionAt _ _ _ _).2 (Or.inl h)
      · rw [if_neg hp]
        exact (mem_graphKeys_graphUnionAt _ _ _ _).2 (Or.inl h)
    · rcases List.mem_cons.1 (by simpa [graphKeys] using h : k ∈ p.1 :: graphKeys hg) with h'' | h'
      · refine ih _ (Or.inl ?_)
        by_cases hp : p.1 ∈ known
        · rw [if_pos hp]
          exact (mem_graphKeys_graphUnionAt _ _ _ _).2 (Or.inr h'')
        · rw [if_neg hp]
          exact (mem_graphKeys_graphUnionAt _ _ _ _).2 (Or.inr h'')
      · exact ih _ (Or.inr h')

end SocialExtract

namespace SocialExtract

variable {α β : Type} [DecidableEq α]

/-! ### Unfolding the hop loop -/

theorem get_graph_loop_succ (nf : α → β → Option (Dict α β × Graph α)) (half : Bool)
    (r : Nat) (st : GState α β) :
    get_graph_loop nf half (r + 1) st = lastStep nf half (midIter nf r st) := by
  induction r generalizing st with
  | zero => rfl
  | succ r ih =>
    have h1 : get_graph_loop nf half (r + 2) st = get_graph_loop nf half (r + 1) (midStep nf st) :=
      rfl
    rw [h1, ih]
    rfl

theorem get_graph_eq_of_half (nf : α → β → Option (Dict α β × Graph α)) (seeds : Dict α β)
    (d : ℚ) (n : ℤ) (hn : ⌈d⌉ = n) (hd : (n : ℚ) ≠ d) :
    get_graph nf seeds d =
      ((get_graph_loop nf true n.toNat (initState seeds)).users,
       (get_graph_loop nf true n.toNat (initState seeds)).graph) := by
  simp only [get_graph, hn, decide_eq_true hd]

theorem get_graph_eq_of_int (nf : α → β → Option (Dict α β × Graph α)) (seeds : Dict α β)
    (d : ℚ) (n : ℤ) (hn : ⌈d⌉ = n) (hd : (n : ℚ) = d) :
    get_graph nf seeds d =
      ((get_graph_loop nf false n.toNat (initState seeds)).users,
       (get_graph_loop nf false n.toNat (initState seeds)).graph) := by
  simp only [get_graph, hn, decide_eq_false (not_not_intro hd)]

theorem get_graph_eq_lastStep_half (nf : α → β → Option (Dict α β × Graph α)) (seeds : Dict α β)
    (d : ℚ) (n : ℤ) (hn : ⌈d⌉ = n) (hd : (n : ℚ) ≠ d) (hpos : 0 < n) :
    get_graph nf seeds d =
      ((lastStep nf true (preFinalState nf seeds d)).users,
       (lastStep nf true (preFinalState nf seeds d)).graph) := by
  rw [get_graph_eq_of_half nf seeds d n hn hd]
  have h1 : n.toNat = (n.toNat - 1) + 1 := by omega
  rw [h1, get_graph_loop_succ]
  have h2 : preFinalState nf seeds d = midIter nf (n.toNat - 1) (initState seeds) := by
    rw [preFinalState, hn]
  rw [h2]

theorem get_graph_eq_lastStep_int (nf : α → β → Option (Dict α β × Graph α)) (seeds : Dict α β)
    (d : ℚ) (n : ℤ) (hn : ⌈d⌉ = n) (hd : (n : ℚ) = d) (hpos : 0 < n) :
    get_graph nf seeds d =
      ((lastStep nf false (preFinalState nf seeds d)).users,
       (lastStep nf false (preFinalState nf seeds d)).graph) := by
  rw [get_graph_eq_of_int nf seeds d n hn hd]
  have h1 : n.toNat = (n.toNat - 1) + 1 := by omega
  rw [h1, get_graph_loop_succ]
  have h2 : preFinalState nf seeds d = midIter nf (n.toNat - 1) (initState seeds) := by
    rw [preFinalState, hn]
  rw [h2]

/-! ### Ceiling arithmetic for the depths the claims use -/

theorem ceil_one_half : (⌈(1/2 : ℚ)⌉ : ℤ) = 1 := by
  rw [Int.ceil_eq_iff]
  norm_num

theorem ceil_int_add_half (m : ℤ) : (⌈((m : ℚ) + 1/2)⌉ : ℤ) = m + 1 := by
  rw [add_comm, Int.ceil_add_int, ceil_one_half, add_comm]

theorem int_succ_cast_ne_add_half (m : ℤ) : ((m + 1 : ℤ) : ℚ) ≠ (m : ℚ) + 1/2 := by
  intro h
  push_cast at h
  have h2 : (1 : ℚ) = 1/2 := add_left_cancel h
  norm_num at h2

theorem ceil_natCast_q (n : ℕ) : (⌈((n : ℚ))⌉ : ℤ) = (n : ℤ) := by
  exact_mod_cast Int.ceil_natCast (α := ℚ) n

/-! ### The fuelled loops against the plain loop -/

theorem fetchAccF_some (nf : α → β → Option (Dict α β × Graph α)) (l : List (α × β)) :
    ∀ (fuel : Nat) (acc : Dict α β × Graph α) (fuel' : Nat) (acc' : Dict α β × Graph α),
      fetchAccF nf l fuel acc = some (fuel', acc') → acc' = fetchAcc nf l acc := by
  induction l with
  | nil =>
    intro fuel acc fuel' acc' h
    simp only [fetchAccF, Option.some.injEq] at h
    exact (congrArg Prod.snd h).symm
  | cons p l ih =>
    intro fuel acc fuel' acc' h
    cases fuel with
    | zero => simp [fetchAccF] at h
    | succ f =>
      cases hf : nf p.1 p.2 with
      | none =>
        simp only [fetchAccF, hf] at h
        simp only [fetchAcc, hf]
        exact ih f acc fuel' acc' h
      | some r =>
        cases r with
        | mk nu ng =>
          simp only [fetchAccF, hf] at h
          simp only [fetchAcc, hf]
          exact ih f _ fuel' acc' h

theorem get_graph_loopF_prefix (nf : α → β → Option (Dict α β × Graph α)) (half : Bool)
    (r : Nat) :
    ∀ (fuel : Nat) (st : GState α β), ∃ k : Nat,
      get_graph_loopF nf half fuel r st =
        if k < r then ((midIter nf k st).users, (midIter nf k st).graph)
        else ((get_graph_loop nf half r st).users, (get_graph_loop nf half r st).graph) := by
  induction r with
  | zero =>
    intro fuel st
    exact ⟨0, by simp [get_graph_loopF, get_graph_loop]⟩
  | succ r ih =>
    intro fuel st
    cases r with
    | zero =>
      cases hf : fetchAccF nf st.next_hop fuel ([], []) with
      | none =>
        refine ⟨0, ?_⟩
        simp only [get_graph_loopF, hf]
        rw [if_pos (by omega : 0 < 0 + 1)]
        rfl
      | some t =>
        obtain ⟨f', hu, hg⟩ := t
        have hacc : ((hu, hg) : Dict α β × Graph α) = fetchHop nf st.next_hop :=
          fetchAccF_some nf st.next_hop fuel ([], []) f' (hu, hg) hf
        refine ⟨1, ?_⟩
        rw [if_neg (by omega : ¬ 1 < 0 + 1)]
        simp only [get_graph_loopF, hf]
        have hlast : lastApply half st hu hg = lastStep nf half st := by
          rw [lastStep, show (hu : Dict α β) = (fetchHop nf st.next_hop).1 from by rw [← hacc],
            show (hg : Graph α) = (fetchHop nf st.next_hop).2 from by rw [← hacc]]
        rw [hlast]
        rfl
    | succ r' =>
      cases hf : fetchAccF nf st.next_hop fuel ([], []) with
      | none =>
        refine ⟨0, ?_⟩
        simp only [get_graph_loopF, hf]
        rw [if_pos (by omega : 0 < r' + 1 + 1)]
        rfl
      | some t =>
        obtain ⟨f', hu, hg⟩ := t
        have hacc : ((hu, hg) : Dict α β × Graph α) = fetchHop nf st.next_hop :=
          fetchAccF_some nf st.next_hop fuel ([], []) f' (hu, hg) hf
        have hmid : midApply st hu hg = midStep nf st := by
          rw [midStep, show (hu : Dict α β) = (fetchHop nf st.next_hop).1 from by rw [← hacc],
            show (hg : Graph α) = (fetchHop nf st.next_hop).2 from by rw [← hacc]]
        obtain ⟨k', hk'⟩ := ih f' (midStep nf st)
        refine ⟨k' + 1, ?_⟩
        have hunfold : get_graph_loopF nf half fuel (r' + 1 + 1) st =
            get_graph_loopF nf half f' (r' + 1) (midApply st hu hg) := by
          simp only [get_graph_loopF, hf]
        rw [hunfold, hmid, hk']
        rcases Nat.lt_or_ge k' (r' + 1) with hlt | hge
        · rw [if_pos hlt, if_pos (by omega : k' + 1 < r' + 1 + 1)]
          rfl
        · rw [if_neg (by omega : ¬ k' < r' + 1), if_neg (by omega : ¬ k' + 1 < r' + 1 + 1)]
          rfl

end SocialExtract

namespace SocialExtract

variable {α β : Type} [DecidableEq α]

theorem lastStep_graph_half (nf : α → β → Option (Dict α β × Graph α)) (st : GState α β) :
    (lastStep nf true st).graph =
      halfFold (setUnion (dictKeys st.users) (dictKeys st.next_hop))
        (fetchHop nf st.next_hop).2 st.graph := rfl

theorem lastStep_graph_whole (nf : α → β → Option (Dict α β × Graph α)) (st : GState α β) :
    (lastStep nf false st).graph =
      wholeFold (dictKeys st.users) (fetchHop nf st.next_hop).2 st.graph := rfl

theorem lastStep_users_half (nf : α → β → Option (Dict α β × Graph α)) (st : GState α β) :
    (lastStep nf true st).users = st.users := rfl

theorem lastStep_users_whole (nf : α → β → Option (Dict α β × Graph α)) (st : GState α β) :
    (lastStep nf false st).users = dictUpdate st.users (fetchHop nf st.next_hop).1 := rfl

/-- C2: for every fetcher, seeds and positive half depth (`d = m + 1/2`,
`m ≥ 0`), the final hop of `get_graph` adds an edge `a → b` to the result
if and only if the hop fetched that edge and both `a` and `b` are in the
union of the users accumulated so far and the frontier of the hop; since
frontier nodes are in that set, lateral edges between two final-hop nodes
are included. -/
theorem half_depth_final_hop_edges (nf : α → β → Option (Dict α β × Graph α))
    (seeds : Dict α β) (d : ℚ) (m : ℤ) (hm : 0 ≤ m) (hd : d = (m : ℚ) + 1/2) (a b : α) :
    edgeMem (get_graph nf seeds d).2 a b ↔
      edgeMem (preFinalState nf seeds d).graph a b ∨
        ((∃ p ∈ (fetchHop nf (preFinalState nf seeds d).next_hop).2, p.1 = a ∧ b ∈ p.2) ∧
          a ∈ hopKnownHalf nf seeds d ∧ b ∈ hopKnownHalf nf seeds d) := by
  have hn : (⌈d⌉ : ℤ) = m + 1 := by rw [hd]; exact ceil_int_add_half m
  have hne : ((m + 1 : ℤ) : ℚ) ≠ d := by rw [hd]; exact int_succ_cast_ne_add_half m
  have hgg : (get_graph nf seeds d).2 = (lastStep nf true (preFinalState nf seeds d)).graph := by
    rw [get_graph_eq_lastStep_half nf seeds d (m + 1) hn hne (by omega)]
  rw [hgg, lastStep_graph_half, edgeMem_halfFold]
  simp only [hopKnownHalf]
  constructor
  · rintro (h | ⟨p, hp, h1, h2, h3, h4⟩)
    · exact Or.inl h
    · exact Or.inr ⟨⟨p, hp, h1, h2⟩, h3, h4⟩
  · rintro (h | ⟨⟨p, hp, h1, h2⟩, h3, h4⟩)
    · exact Or.inl h
    · exact Or.inr ⟨p, hp, h1, h2, h3, h4⟩

/-- Witness for C2 at the generative fetcher, seed `"1"`, depth `3/2`. -/
theorem half_depth_final_hop_edges_witness :
    edgeMem (get_graph _generate_node seed1 (3/2)).2 "10" "11" ↔
      edgeMem (preFinalState _generate_node seed1 (3/2)).graph "10" "11" ∨
        ((∃ p ∈ (fetchHop _generate_node (preFinalState _generate_node seed1 (3/2)).next_hop).2,
            p.1 = "10" ∧ "11" ∈ p.2) ∧
          "10" ∈ hopKnownHalf _generate_node seed1 (3/2) ∧
          "11" ∈ hopKnownHalf _generate_node seed1 (3/2)) :=
  half_depth_final_hop_edges _generate_node seed1 (3/2) 1 (by norm_num) (by norm_num) "10" "11"

/-- C3: for every fetcher, seeds and whole depth `n ≥ 1`, the final hop of
`get_graph` adds an edge `a → b` exactly when the hop fetched it and `a` or
`b` is a key of the users accumulated before the hop: a follower already in
the prior users keeps all its edges, a new follower keeps only edges into
the prior users, and edges from a new follower into the new frontier are
dropped. -/
theorem whole_depth_final_hop_edges (nf : α → β → Option (Dict α β × Graph α))
    (seeds : Dict α β) (n : ℕ) (hn : 1 ≤ n) (a b : α) :
    edgeMem (get_graph nf seeds (n : ℚ)).2 a b ↔
      edgeMem (preFinalState nf seeds (n : ℚ)).graph a b ∨
        ((∃ p ∈ (fetchHop nf (preFinalState nf seeds (n : ℚ)).next_hop).2, p.1 = a ∧ b ∈ p.2) ∧
          (a ∈ dictKeys (preFinalState nf seeds (n : ℚ)).users ∨
            b ∈ dictKeys (preFinalState nf seeds (n : ℚ)).users)) := by
  have hceil : (⌈(n : ℚ)⌉ : ℤ) = (n : ℤ) := ceil_natCast_q n
  have heq : ((n : ℤ) : ℚ) = (n : ℚ) := by push_cast; rfl
  have hgg : (get_graph nf seeds (n : ℚ)).2 =
      (lastStep nf false (preFinalState nf seeds (n : ℚ))).graph := by
    rw [get_graph_eq_lastStep_int nf seeds (n : ℚ) (n : ℤ) hceil heq (by omega)]
  rw [hgg, lastStep_graph_whole, edgeMem_wholeFold]
  constructor
  · rintro (h | ⟨p, hp, h1, h2, h3⟩)
    · exact Or.inl h
    · exact Or.inr ⟨⟨p, hp, h1, h2⟩, h3⟩
  · rintro (h | ⟨⟨p, hp, h1, h2⟩, h3⟩)
    · exact Or.inl h
    · exact Or.inr ⟨p, hp, h1, h2, h3⟩

/-- Witness for C3 at the generative fetcher, seed `"1"`, depth `1`. -/
theorem whole_depth_final_hop_edges_witness :
    edgeMem (get_graph _generate_node seed1 ((1 : ℕ) : ℚ)).2 "1" "10" ↔
      edgeMem (preFinalState _generate_node seed1 ((1 : ℕ) : ℚ)).graph "1" "10" ∨
        ((∃ p ∈ (fetchHop _generate_node
              (preFinalState _generate_node seed1 ((1 : ℕ) : ℚ)).next_hop).2,
            p.1 = "1" ∧ "10" ∈ p.2) ∧
          ("1" ∈ dictKeys (preFinalState _generate_node seed1 ((1 : ℕ) : ℚ)).users ∨
            "10" ∈ dictKeys (preFinalState _generate_node seed1 ((1 : ℕ) : ℚ)).users)) :=
  whole_depth_final_hop_edges _generate_node seed1 1 (by norm_num) "1" "10"

/-- C8: for every fetcher, seeds and positive half depth, the final hop
leaves the user registry exactly as it was before the hop, while the
returned edge map is the prior edge map still processed by the half-depth
edge filter of that hop. -/
theorem half_depth_users_unchanged (nf : α → β → Option (Dict α β × Graph α))
    (seeds : Dict α β) (d : ℚ) (m : ℤ) (hm : 0 ≤ m) (hd : d = (m : ℚ) + 1/2) :
    (get_graph nf seeds d).1 = (preFinalState nf seeds d).users ∧
    (get_graph nf seeds d).2 =
      halfFold (hopKnownHalf nf seeds d)
        (fetchHop nf (preFinalState nf seeds d).next_hop).2
        (preFinalState nf seeds d).graph := by
  have hn : (⌈d⌉ : ℤ) = m + 1 := by rw [hd]; exact ceil_int_add_half m
  have hne : ((m + 1 : ℤ) : ℚ) ≠ d := by rw [hd]; exact int_succ_cast_ne_add_half m
  constructor
  · rw [get_graph_eq_lastStep_half nf seeds d (m + 1) hn hne (by omega)]
    exact lastStep_users_half nf (preFinalState nf seeds d)
  · rw [get_graph_eq_lastStep_half nf seeds d (m + 1) hn hne (by omega)]
    simp only [hopKnownHalf]
    exact lastStep_graph_half nf (preFinalState nf seeds d)

/-- Witness for C8 at the generative fetcher, seed `"1"`, depth `3/2`. -/
theorem half_depth_users_unchanged_witness :
    (get_graph _generate_node seed1 (3/2)).1 = (preFinalState _generate_node seed1 (3/2)).users ∧
    (get_graph _generate_node seed1 (3/2)).2 =
      halfFold (hopKnownHalf _generate_node seed1 (3/2))
        (fetchHop _generate_node (preFinalState _generate_node seed1 (3/2)).next_hop).2
        (preFinalState _generate_node seed1 (3/2)).graph :=
  half_depth_users_unchanged _generate_node seed1 (3/2) 1 (by norm_num) (by norm_num)

end SocialExtract

namespace SocialExtract

variable {α β : Type} [DecidableEq α]

set_option maxRecDepth 8000 in
/-- C1: for the generative Node Fetcher of test.py with the single seed
`"1"`, `get_graph` returns 5 users and 4 edges at depth 1 with the edge
10→11 absent; 5 users and 5 edges at depth 1.5 with the edge 10→11
present; 21 users and 21 edges at depth 2; and 21 users and 25 edges at
depth 2.5 with the four lateral second-hop edges present. -/
theorem generative_fetcher_depth_profile :
    ((get_graph _generate_node seed1 1).1.length = 5 ∧
      countEdges (get_graph _generate_node seed1 1).2 = 4 ∧
      ¬ edgeMem (get_graph _generate_node seed1 1).2 "10" "11") ∧
    ((get_graph _generate_node seed1 (3/2)).1.length = 5 ∧
      countEdges (get_graph _generate_node seed1 (3/2)).2 = 5 ∧
      edgeMem (get_graph _generate_node seed1 (3/2)).2 "10" "11") ∧
    ((get_graph _generate_node seed1 2).1.length = 21 ∧
      countEdges (get_graph _generate_node seed1 2).2 = 21) ∧
    ((get_graph _generate_node seed1 (5/2)).1.length = 21 ∧
      countEdges (get_graph _generate_node seed1 (5/2)).2 = 25 ∧
      edgeMem (get_graph _generate_node seed1 (5/2)).2 "100" "101" ∧
      edgeMem (get_graph _generate_node seed1 (5/2)).2 "110" "111" ∧
      edgeMem (get_graph _generate_node seed1 (5/2)).2 "120" "121" ∧
      edgeMem (get_graph _generate_node seed1 (5/2)).2 "130" "131") := by
  rw [get_graph_eq_of_half _generate_node seed1 (3/2) 2
      (by rw [Int.ceil_eq_iff]; norm_num) (by norm_num),
    get_graph_eq_of_half _generate_node seed1 (5/2) 3
      (by rw [Int.ceil_eq_iff]; norm_num) (by norm_num)]
  decide

/-- C5: the hop fetch loop of `get_graph` (util.py lines 39-47) is
unaffected by the frontier nodes whose fetch raises: the aggregate equals
the one computed from the successfully fetched nodes alone, and a failing
node at the head of the frontier contributes nothing.  In particular, when
the fetch fails for exactly one of N frontier nodes, the results of the
other N−1 nodes are fully incorporated, and the loop (hence `get_graph`,
which is total) raises nothing. -/
theorem fetch_failure_isolation (nf : α → β → Option (Dict α β × Graph α))
    (frontier : List (α × β)) (acc : Dict α β × Graph α) (p : α × β)
    (hfail : nf p.1 p.2 = none) :
    fetchAcc nf frontier acc = fetchAcc nf (frontier.filter (fun q => (nf q.1 q.2).isSome)) acc ∧
    fetchAcc nf (p :: frontier) acc = fetchAcc nf frontier acc := by
  constructor
  · exact fetchAcc_filter_isSome nf frontier acc
  · simp only [fetchAcc, hfail]

/-- Witness for C5: `nfDup` raises on every node other than A and B. -/
theorem fetch_failure_isolation_witness :
    fetchAcc nfDup [("A", "a"), ("C", "c"), ("B", "b")] ([], []) =
      fetchAcc nfDup
        ([("A", "a"), ("C", "c"), ("B", "b")].filter (fun q => (nfDup q.1 q.2).isSome))
        ([], []) ∧
    fetchAcc nfDup (("C", "c") :: [("A", "a"), ("B", "b")]) ([], []) =
      fetchAcc nfDup [("A", "a"), ("B", "b")] ([], []) :=
  fetch_failure_isolation nfDup [("A", "a"), ("C", "c"), ("B", "b")] ([], [])
    ("C", "c") (by decide)

/-- C9 (amended): within a hop, accumulating one fetched fragment
`(nu, ng)` into the aggregates `(hu, hg)` unions the edge sets (edges are
never removed, so the edge aggregate is a monotonic, order-insensitive
merge) and grows the key set of `hu`; but for a node id that both the
aggregate and the fragment carry, the fragment's label replaces the
recorded one (`dict.update` is last-write-wins), so labels are
order-sensitive. -/
theorem hop_aggregate_merge (hu nu : Dict α β) (hg ng : Graph α) (a b k : α)
    (hnd : (dictKeys nu).Nodup) :
    (edgeMem (merge_graphs ng hg) a b ↔ (edgeMem hg a b ∨ edgeMem ng a b)) ∧
    (k ∈ dictKeys (dictUpdate hu nu) ↔ (k ∈ dictKeys hu ∨ k ∈ dictKeys nu)) ∧
    (dictGet (dictUpdate hu nu) k =
      if k ∈ dictKeys nu then dictGet nu k else dictGet hu k) :=
  ⟨edgeMem_merge_graphs ng hg a b, mem_dictKeys_dictUpdate hu nu k,
    dictGet_dictUpdate_of_nodup hu nu k hnd⟩

/-- Witness for C9 (amended): the second fragment overwrites the label of
`"X"` recorded by the first. -/
theorem hop_aggregate_merge_witness :
    (edgeMem (merge_graphs ([] : Graph String) []) "X" "Y" ↔
      (edgeMem ([] : Graph String) "X" "Y" ∨ edgeMem ([] : Graph String) "X" "Y")) ∧
    ("X" ∈ dictKeys (dictUpdate [("X", "l1")] [("X", "l2")]) ↔
      ("X" ∈ dictKeys ([("X", "l1")] : Dict String String) ∨
        "X" ∈ dictKeys ([("X", "l2")] : Dict String String))) ∧
    (dictGet (dictUpdate [("X", "l1")] [("X", "l2")]) "X" =
      if "X" ∈ dictKeys ([("X", "l2")] : Dict String String) then dictGet [("X", "l2")] "X"
      else dictGet [("X", "l1")] "X") :=
  hop_aggregate_merge [("X", "l1")] [("X", "l2")] [] [] "X" "Y" "X" (by decide)

/-- Counterexample to C9 as stated: after fetching node A the hop aggregate
records label "l1" for user X, and the later fetch of node B overwrites it
with "l2", so a later fetch does overwrite an already-recorded label. -/
theorem hop_users_overwrite :
    (fetchAcc nfDup [("A", "a")] ([], [])).1 = [("X", "l1")] ∧
    (fetchHop nfDup [("A", "a"), ("B", "b")]).1 = [("X", "l2")] ∧
    dictGet (fetchHop nfDup [("A", "a"), ("B", "b")]).1 "X" ≠ some "l1" := by
  decide

/-- C10: for every whole depth `n ≥ 1`, every node id appearing as a
follower key in any fragment successfully fetched during the final hop is a
key of the returned edge map, even when the last-hop policy prunes all of
its edges; concretely, at depth 1 from seed "1" the returned graph maps
node "10" to the empty target set. -/
theorem final_hop_followers_are_keys (nf : α → β → Option (Dict α β × Graph α))
    (seeds : Dict α β) (n : ℕ) (hn : 1 ≤ n) (p : α × β)
    (hp : p ∈ (preFinalState nf seeds (n : ℚ)).next_hop)
    (nu : Dict α β) (ng : Graph α) (hf : nf p.1 p.2 = some (nu, ng))
    (k : α) (hk : k ∈ graphKeys ng) :
    k ∈ graphKeys (get_graph nf seeds (n : ℚ)).2 ∧
    "10" ∈ graphKeys (get_graph _generate_node seed1 1).2 ∧
    graphGetD (get_graph _generate_node seed1 1).2 "10" = [] := by
  refine ⟨?_, by decide, by decide⟩
  have hceil : (⌈(n : ℚ)⌉ : ℤ) = (n : ℤ) := ceil_natCast_q n
  have heq : ((n : ℤ) : ℚ) = (n : ℚ) := by push_cast; rfl
  have hgg : (get_graph nf seeds (n : ℚ)).2 =
      (lastStep nf false (preFinalState nf seeds (n : ℚ))).graph := by
    rw [get_graph_eq_lastStep_int nf seeds (n : ℚ) (n : ℤ) hceil heq (by omega)]
  rw [hgg, lastStep_graph_whole]
  refine mem_graphKeys_wholeFold _ _ _ _ (Or.inr ?_)
  exact mem_graphKeys_fetchAcc_of_frag nf (preFinalState nf seeds (n : ℚ)).next_hop
    ([], []) p hp nu ng hf k hk

/-- Witness for C10 at the generative fetcher, seed `"1"`, depth `1`,
fragment of node "1", follower key "10". -/
theorem final_hop_followers_are_keys_witness :
    "10" ∈ graphKeys (get_graph _generate_node seed1 ((1 : ℕ) : ℚ)).2 ∧
    "10" ∈ graphKeys (get_graph _generate_node seed1 1).2 ∧
    graphGetD (get_graph _generate_node seed1 1).2 "10" = [] :=
  final_hop_followers_are_keys _generate_node seed1 1 (by norm_num) ("1", "user1")
    (by decide)
    [("10", "user10"), ("11", "user11"), ("12", "user12"), ("13", "user13")]
    [("1", ["10", "11"]), ("12", ["1"]), ("13", ["1"]), ("10", ["11"])]
    (by decide) "10" (by decide)

end SocialExtract

namespace SocialExtract

variable {α β : Type} [DecidableEq α]

/-- The hop loop keeps the all-empty state fixed: with no frontier there is
nothing to fetch and every merge is a no-op. -/
theorem get_graph_loop_empty (nf : α → β → Option (Dict α β × Graph α)) (half : Bool) :
    ∀ r : Nat,
      get_graph_loop nf half r ({ users := [], graph := [], next_hop := [] } : GState α β) =
        { users := [], graph := [], next_hop := [] } := by
  intro r
  induction r with
  | zero => rfl
  | succ r ih =>
    cases r with
    | zero => cases half <;> rfl
    | succ r' =>
      have hstep : get_graph_loop nf half (r' + 2)
            ({ users := [], graph := [], next_hop := [] } : GState α β) =
          get_graph_loop nf half (r' + 1)
            (midStep nf { users := [], graph := [], next_hop := [] }) := rfl
      rw [hstep,
        show midStep nf ({ users := [], graph := [], next_hop := [] } : GState α β) =
          { users := [], graph := [], next_hop := [] } from rfl]
      exact ih

/-- C6 (amended): `get_graph` performs no configuration validation.  A
negative `max_depth` simply runs zero hops and returns the seeds with an
empty edge map; an empty seed mapping returns empty users and edges at any
depth; and a depth that is not a multiple of 0.5 is silently treated like
the half depth with the same ceiling (fetches do happen), here 1.3 behaving
exactly like 1.5.  No error is raised in any of these cases. -/
theorem no_configuration_validation (nf : α → β → Option (Dict α β × Graph α))
    (seeds : Dict α β) (d d2 : ℚ) (hneg : d < 0) :
    get_graph nf seeds d = (seeds, []) ∧
    get_graph nf ([] : Dict α β) d2 = ([], []) ∧
    get_graph nf seeds (13/10) = get_graph nf seeds (3/2) := by
  refine ⟨?_, ?_, ?_⟩
  · have hle : (⌈d⌉ : ℤ) ≤ 0 := by
      have h := Int.ceil_le_ceil (α := ℚ) (le_of_lt hneg)
      rwa [Int.ceil_zero] at h
    have h0 : (⌈d⌉ : ℤ).toNat = 0 := by omega
    simp only [get_graph, h0]
    rfl
  · simp only [get_graph]
    rw [show initState ([] : Dict α β) =
        ({ users := [], graph := [], next_hop := [] } : GState α β) from rfl,
      get_graph_loop_empty]
  · rw [get_graph_eq_of_half nf seeds (13/10) 2 (by rw [Int.ceil_eq_iff]; norm_num)
      (by norm_num),
      get_graph_eq_of_half nf seeds (3/2) 2 (by rw [Int.ceil_eq_iff]; norm_num)
      (by norm_num)]

/-- Witness for C6 (amended) at the generative fetcher and depth −1. -/
theorem no_configuration_validation_witness :
    get_graph _generate_node seed1 (-1) = (seed1, []) ∧
    get_graph _generate_node ([] : Dict String String) 1 = ([], []) ∧
    get_graph _generate_node seed1 (13/10) = get_graph _generate_node seed1 (3/2) :=
  no_configuration_validation _generate_node seed1 (-1) 1 (by norm_num)

/-- Counterexample to C6 as stated: a negative depth, an empty seed mapping
and a non-multiple-of-0.5 depth are not rejected: `get_graph` returns
ordinary values (and at depth 1.3 the seed has visibly been fetched, since
5 users are returned). -/
theorem invalid_configuration_not_rejected :
    get_graph _generate_node seed1 (-1) = (seed1, []) ∧
    get_graph _generate_node ([] : Dict String String) 1 = ([], []) ∧
    (get_graph _generate_node seed1 (13/10)).1.length = 5 := by
  refine ⟨?_, ?_, ?_⟩
  · rw [get_graph_eq_of_int _generate_node seed1 (-1) (-1)
      (by rw [Int.ceil_eq_iff]; norm_num) (by norm_num)]
    rfl
  · simp only [get_graph]
    rw [show initState ([] : Dict String String) =
        ({ users := [], graph := [], next_hop := [] } : GState String String) from rfl,
      get_graph_loop_empty]
  · rw [get_graph_eq_of_half _generate_node seed1 (13/10) 2
      (by rw [Int.ceil_eq_iff]; norm_num) (by norm_num)]
    decide

end SocialExtract

namespace SocialExtract

variable {α β : Type} [DecidableEq α]

/-- C7 (amended): for `0 < max_depth < 1`, `get_graph` performs one hop
rather than zero: every seed is fetched, the returned users are the seeds
unchanged (half-depth final hop), and the returned edges are exactly the
fetched edges with both endpoints in the seed set. -/
theorem sub_unit_depth_one_hop (nf : α → β → Option (Dict α β × Graph α))
    (seeds : Dict α β) (d : ℚ) (h0 : 0 < d) (h1 : d < 1) (a b : α) :
    (get_graph nf seeds d).1 = seeds ∧
    (edgeMem (get_graph nf seeds d).2 a b ↔
      ((∃ p ∈ (fetchHop nf seeds).2, p.1 = a ∧ b ∈ p.2) ∧
        a ∈ dictKeys seeds ∧ b ∈ dictKeys seeds)) := by
  have hceil : (⌈d⌉ : ℤ) = 1 := by
    rw [Int.ceil_eq_iff]
    constructor
    · push_cast
      linarith
    · push_cast
      linarith
  have hne : ((1 : ℤ) : ℚ) ≠ d := by
    push_cast
    exact ne_of_gt h1
  have hpre : preFinalState nf seeds d = initState seeds := by
    rw [preFinalState, hceil]
    rfl
  constructor
  · rw [get_graph_eq_lastStep_half nf seeds d 1 hceil hne (by omega), hpre]
    exact lastStep_users_half nf (initState seeds)
  · have hgg : (get_graph nf seeds d).2 = (lastStep nf true (initState seeds)).graph := by
      rw [get_graph_eq_lastStep_half nf seeds d 1 hceil hne (by omega), hpre]
    rw [hgg, lastStep_graph_half, edgeMem_halfFold]
    constructor
    · rintro (h | ⟨p, hp, hp1, hp2, hp3, hp4⟩)
      · exact absurd h (edgeMem_nil a b)
      · refine ⟨⟨p, hp, hp1, hp2⟩, ?_, ?_⟩
        · rcases (mem_setUnion _ _ _).1 hp3 with h' | h' <;> exact h'
        · rcases (mem_setUnion _ _ _).1 hp4 with h' | h' <;> exact h'
    · rintro ⟨⟨p, hp, hp1, hp2⟩, ha, hb⟩
      exact Or.inr ⟨p, hp, hp1, hp2, (mem_setUnion _ _ _).2 (Or.inl ha),
        (mem_setUnion _ _ _).2 (Or.inl hb)⟩

/-- Witness for C7 (amended): two seeds, depth 1/2, the fetched edge A→B
between the two seeds. -/
theorem sub_unit_depth_one_hop_witness :
    (get_graph nfAB [("A", "a"), ("B", "b")] (1/2)).1 = [("A", "a"), ("B", "b")] ∧
    (edgeMem (get_graph nfAB [("A", "a"), ("B", "b")] (1/2)).2 "A" "B" ↔
      ((∃ p ∈ (fetchHop nfAB [("A", "a"), ("B", "b")]).2, p.1 = "A" ∧ "B" ∈ p.2) ∧
        "A" ∈ dictKeys ([("A", "a"), ("B", "b")] : Dict String String) ∧
        "B" ∈ dictKeys ([("A", "a"), ("B", "b")] : Dict String String))) :=
  sub_unit_depth_one_hop nfAB [("A", "a"), ("B", "b")] (1/2) (by norm_num) (by norm_num)
    "A" "B"

/-- Counterexample to C7 as stated: at `max_depth = 1/2` (strictly between
0 and 1) with two seeds A and B where A follows B, `get_graph` does not
return the seeds with an empty edge set: the seeds are fetched and the edge
A→B among the seeds is returned. -/
theorem sub_unit_depth_fetches_seeds :
    get_graph nfAB [("A", "a"), ("B", "b")] (1/2) ≠
      (([("A", "a"), ("B", "b")] : Dict String String), ([] : Graph String)) := by
  rw [get_graph_eq_of_half nfAB [("A", "a"), ("B", "b")] (1/2) 1 ceil_one_half (by norm_num)]
  decide

/-- C4 (amended): an interruption delivered at a fetch boundary (before
some fetch begins, the points between fetches) makes `get_graph` return the
users and edges that the uninterrupted run accumulates through some number
of fully completed hops — no partially applied hop. -/
theorem interrupt_fetch_boundary_clean_prefix (nf : α → β → Option (Dict α β × Graph α))
    (seeds : Dict α β) (d : ℚ) (fuel : Nat) :
    ∃ k : Nat, get_graph_intrFetch nf seeds d fuel = get_graph_after_hops nf seeds d k := by
  obtain ⟨k, hk⟩ := get_graph_loopF_prefix nf (decide (¬ (((⌈d⌉ : ℤ) : ℚ) = d)))
    ((⌈d⌉ : ℤ).toNat) fuel (initState seeds)
  refine ⟨k, ?_⟩
  by_cases hlt : k < ((⌈d⌉ : ℤ)).toNat
  · simp only [get_graph_intrFetch, get_graph_after_hops]
    rw [hk, if_pos hlt, if_pos hlt]
  · simp only [get_graph_intrFetch, get_graph_after_hops, get_graph]
    rw [hk, if_neg hlt]

/-- Counterexample to C4 as stated: with the generative fetcher at depth 2,
an interruption delivered after the first hop merged its edges but before
it recorded its users (between lines 51 and 77 of util.py) returns the
seed-only user registry together with the first hop's edges — a state that
matches no fully completed hop count of the uninterrupted run. -/
theorem interrupt_mid_hop_partial_state :
    (get_graph_intr _generate_node seed1 2 1).1 = seed1 ∧
    (get_graph_intr _generate_node seed1 2 1).2 ≠ [] ∧
    get_graph_intr _generate_node seed1 2 1 ≠ get_graph_after_hops _generate_node seed1 2 0 ∧
    get_graph_intr _generate_node seed1 2 1 ≠ get_graph_after_hops _generate_node seed1 2 1 ∧
    get_graph_intr _generate_node seed1 2 1 ≠ get_graph_after_hops _generate_node seed1 2 2 := by
  decide

end SocialExtract
